import Mathlib

/-!
Verification of the commit-log subsystem of the hoppynewbeer repository.

The repository persists guestbook "commit" records as Markdown lines in a
single backing file.  The core logic is:

* `parseLine` (src/app/api/commit/route.ts): decodes one Markdown line into a
  record using the JavaScript regular expression
  `^- \*\*([a-zA-Z0-9]+)\*\* \[([^\]]+)\] (\(pending\) )?(.+?): "([^"]+)" _\(([^)]+)\)_`.
* the encoder (route.ts line 151): produces
  `- **<hash>** [<tap>] (pending) <alias>: "<message>" _(<createdAt>)_`.
* `loadFromFile` (route.ts lines 49-61): splits the file on newlines, keeps
  lines starting with `- **`, decodes them, drops failures, reverses.
* the approve endpoint (unnamed route file): checks payload / secret /
  configuration, then searches the file with the multiline regex
  `^- \*\*<hash>\*\* \[([^\]]+)\] \(pending\) (.+)$` built by splicing the
  request hash into `new RegExp`, and rewrites the first match via
  JavaScript `String.replace` (first-substring, `$`-expansion).
* the commit endpoint POST (route.ts lines 100-185): validation, trimming,
  truncation to 140 characters, best-effort persistence.

Strings are modelled as `List Char`.  The JavaScript regular expressions are
embedded as deterministic parsers that reproduce the backtracking semantics
of the concrete patterns used (greedy character classes followed by a literal
not in the class are deterministic; the lazy alias group `(.+?)` is a
shortest-first search; the optional `(\(pending\) )?` group tries the marker
first and falls back).  `.` (no `s` flag) matches everything except the four
ECMAScript line terminators LF, CR, LS (U+2028) and PS (U+2029); the
multiline `^` matches at the start and after every line terminator; the
multiline `$` matches at the end and before every line terminator.

The spliced hash is matched as literal text.  Alphanumeric characters are
regex-literal and keep the composed pattern well formed, so the matcher is
exact for the alphanumeric hashes the log format allows; a hash containing
regex syntax characters reinterprets the program's pattern, or makes the
`RegExp` constructor throw (modelled by the `regexOk` effect parameter of
`approvePOST`), and every endpoint theorem below that touches the search
therefore assumes an alphanumeric hash.
-/

/-! ## Definitions -/

/-- Lifecycle status of a commit record (derived from the pending marker). -/
inductive Status where
  | pending
  | approved
deriving DecidableEq, Repr

/-- A commit record as produced by `parseLine` / consumed by the encoder.
The random presentation fields (`bubbleX`, `bubbleDelay`) are floating-point
display jitter and carry no information from the line; they are omitted. -/
structure CommitRecord where
  hash : List Char
  tap : List Char
  «alias» : List Char
  message : List Char
  createdAt : List Char
  status : Status
deriving DecidableEq, Repr

/-- Strip a literal pattern from the front of a string; `none` when the
string does not start with the pattern.  This is matching a literal part of
a regular expression. -/
def stripLit : List Char → List Char → Option (List Char)
  | [], s => some s
  | _ :: _, [] => none
  | p :: ps, c :: cs => if c = p then stripLit ps cs else none

/-- The character class `[a-zA-Z0-9]`. -/
def isAlnumChar (c : Char) : Bool :=
  (Nat.ble 97 c.toNat && Nat.ble c.toNat 122) ||
  (Nat.ble 65 c.toNat && Nat.ble c.toNat 90) ||
  (Nat.ble 48 c.toNat && Nat.ble c.toNat 57)

/-- The ECMAScript line terminators: LF, CR, LS (U+2028) and PS (U+2029).
`.` without the `s` flag matches exactly the characters for which this is
false, and the `m`-flag anchors `^` / `$` break lines at exactly these
characters. -/
def isLineTerm (c : Char) : Bool :=
  c == '\n' || c == '\r' || c == Char.ofNat 8232 || c == Char.ofNat 8233

/-- Matcher for the tail `([^"]+)" _\(([^)]+)\)_` of the line regex:
a non-empty run of non-quote characters, the literal `" _(`, a non-empty run
of non-`)` characters, the literal `)_` (anything may follow, the regex has
no end anchor).  Returns (message, createdAt).  Both greedy classes are
followed by a literal that the class excludes, so backtracking inside them
cannot succeed and the match is deterministic. -/
def parseMsgDate (s : List Char) : Option (List Char × List Char) :=
  let msg := s.takeWhile (fun c => c ≠ '"')
  if msg = [] then none
  else
    match stripLit "\" _(".toList (s.dropWhile (fun c => c ≠ '"')) with
    | none => none
    | some s2 =>
      let date := s2.takeWhile (fun c => c ≠ ')')
      if date = [] then none
      else
        match stripLit ")_".toList (s2.dropWhile (fun c => c ≠ ')')) with
        | none => none
        | some _ => some (msg, date)

/-- Matcher for `(.+?): "` followed by `parseMsgDate`: the lazy group tries
the shortest alias first and extends one character at a time when the rest of
the pattern fails; `.` does not match a line terminator.  `acc` is the alias
matched so far.  Returns (alias, message, createdAt). -/
def parseAMDGo (acc : List Char) : List Char → Option (List Char × List Char × List Char)
  | [] => none
  | c :: rest =>
    if isLineTerm c then none
    else
      match stripLit ": \"".toList rest with
      | some s2 =>
        match parseMsgDate s2 with
        | some (m, d) => some (acc ++ [c], m, d)
        | none => parseAMDGo (acc ++ [c]) rest
      | none => parseAMDGo (acc ++ [c]) rest

/-- Decoder for one Markdown line: the embedding of `parseLine` from
src/app/api/commit/route.ts.  It reproduces the JavaScript match of
`^- \*\*([a-zA-Z0-9]+)\*\* \[([^\]]+)\] (\(pending\) )?(.+?): "([^"]+)" _\(([^)]+)\)_`
at position 0: literal prefix, maximal alphanumeric run (hash), literal
`** [`, maximal non-`]` run (tap), literal `] `, then the optional pending
marker is tried greedily (marker consumed first, falling back to no marker
when the rest of the pattern cannot match), then alias/message/date. -/
def parseLine (line : List Char) : Option CommitRecord :=
  match stripLit "- **".toList line with
  | none => none
  | some s1 =>
    let hash := s1.takeWhile isAlnumChar
    if hash = [] then none
    else
      match stripLit "** [".toList (s1.dropWhile isAlnumChar) with
      | none => none
      | some s2 =>
        let tap := s2.takeWhile (fun c => c ≠ ']')
        if tap = [] then none
        else
          match stripLit "] ".toList (s2.dropWhile (fun c => c ≠ ']')) with
          | none => none
          | some s3 =>
            match stripLit "(pending) ".toList s3 with
            | some s4 =>
              match parseAMDGo [] s4 with
              | some (a, m, d) =>
                some ⟨hash, tap, a, m, d, Status.pending⟩
              | none =>
                match parseAMDGo [] s3 with
                | some (a, m, d) =>
                  some ⟨hash, tap, a, m, d, Status.approved⟩
                | none => none
            | none =>
              match parseAMDGo [] s3 with
              | some (a, m, d) =>
                some ⟨hash, tap, a, m, d, Status.approved⟩
              | none => none

/-- Encoder: the template literal of route.ts line 151 for pending records,
and the approved form (no `(pending) ` token) produced by the approval
rewrite — exactly the §4.1 line format, without the trailing newline that the
append adds separately. -/
def encodeLine (r : CommitRecord) : List Char :=
  "- **".toList ++ r.hash ++ "** [".toList ++ r.tap ++ "] ".toList ++
    (if r.status = Status.pending then "(pending) ".toList else []) ++
    r.«alias» ++ ": \"".toList ++ r.message ++ "\" _(".toList ++
    r.createdAt ++ ")_".toList

/-- Substring test (`String.prototype.includes`): does `pat` occur
contiguously inside `s`? -/
def hasSubList (pat : List Char) : List Char → Bool
  | [] => pat.isEmpty
  | s@(_ :: rest) => pat.isPrefixOf s || hasSubList pat rest

/-- Conditions under which a record's encoded line decodes back to the
record: alphanumeric non-empty hash, non-empty tap without `]`, non-empty
alias without line terminators (the alias group `(.+?)` consists of dots),
without the `: "` delimiter, and (for approved records) not starting with
the pending marker, non-empty message without any `"`, non-empty createdAt
without `)`. -/
def RoundTrippable (r : CommitRecord) : Prop :=
  r.hash ≠ [] ∧ (∀ c ∈ r.hash, isAlnumChar c = true) ∧
  r.tap ≠ [] ∧ (∀ c ∈ r.tap, c ≠ ']') ∧
  r.«alias» ≠ [] ∧ (∀ c ∈ r.«alias», isLineTerm c = false) ∧
  hasSubList ": \"".toList r.«alias» = false ∧
  (r.status = Status.approved → ("(pending) ".toList).isPrefixOf r.«alias» = false) ∧
  r.message ≠ [] ∧ (∀ c ∈ r.message, c ≠ '"') ∧
  r.createdAt ≠ [] ∧ (∀ c ∈ r.createdAt, c ≠ ')')

instance (r : CommitRecord) : Decidable (RoundTrippable r) := by
  unfold RoundTrippable
  infer_instance

/-- JavaScript `content.split("\n")` over `List Char` (keeps empty pieces,
yields `[[]]` on the empty string, exactly like `String.prototype.split`). -/
def splitNL : List Char → List (List Char)
  | [] => [[]]
  | c :: rest =>
    if c = '\n' then [] :: splitNL rest
    else
      match splitNL rest with
      | [] => [[c]]
      | l :: ls => (c :: l) :: ls

/-- The embedding of `loadFromFile` (route.ts lines 49-61): split on newlines,
keep lines starting with `- **`, decode each, drop failures, newest last in
the file so the list is reversed. -/
def loadFromFile (content : List Char) : List CommitRecord :=
  (((splitNL content).filter
      (fun l => ("- **".toList).isPrefixOf l)).filterMap parseLine).reverse

/-- One-position matcher for the approve regex
`^- \*\*<hash>\*\* \[([^\]]+)\] \(pending\) (.+)$` (flag `m`): matched at a
position that the caller guarantees to be a line start.  The tap class
`[^\]]` may match a line terminator (a negated class does not exclude
them); the `.` of the rest group and the multiline `$` anchor stop at any
line terminator.  The spliced-in hash is matched as literal text: exact for
hashes without regex syntax characters (in particular alphanumeric ones,
which the theorems assume).  Returns (match0, tap, rest). -/
def parsePendingAt (hash s : List Char) : Option (List Char × List Char × List Char) :=
  match stripLit ("- **".toList ++ hash ++ "** [".toList) s with
  | none => none
  | some s1 =>
    let tap := s1.takeWhile (fun c => c ≠ ']')
    if tap = [] then none
    else
      match stripLit "] (pending) ".toList (s1.dropWhile (fun c => c ≠ ']')) with
      | none => none
      | some s2 =>
        let rest := s2.takeWhile (fun c => !(isLineTerm c))
        if rest = [] then none
        else
          some ("- **".toList ++ hash ++ "** [".toList ++ tap ++
              "] (pending) ".toList ++ rest,
            tap, rest)

/-- Scan of the remaining content for further line starts: try the pattern
at the position following each line terminator (LF, CR, LS, PS — the
multiline `^` matches after every one of them), left to right (the tail of
the search of the `m`-flagged regex). -/
def searchAfterNL (hash : List Char) : List Char → Option (List Char × List Char × List Char)
  | [] => none
  | c :: rest =>
    if isLineTerm c then
      match parsePendingAt hash rest with
      | some r => some r
      | none => searchAfterNL hash rest
    else searchAfterNL hash rest

/-- Left-to-right search of the `m`-flagged regex over the whole content:
try position 0, then the position after each line terminator, returning the
first match (this is what `content.match(lineRegex)` does for a
`^`-anchored multiline regex). -/
def searchPending (hash : List Char) (s : List Char) :
    Option (List Char × List Char × List Char) :=
  match parsePendingAt hash s with
  | some r => some r
  | none => searchAfterNL hash s

/-- Split at the first occurrence of `pat` (the search part of JavaScript
`String.prototype.replace` with a string pattern): `some (b, a)` with
`s = b ++ pat ++ a` at the first occurrence, `none` when absent. -/
def splitFirst (pat : List Char) : List Char → Option (List Char × List Char)
  | [] => if pat = [] then some ([], []) else none
  | s@(c :: rest) =>
    if pat.isPrefixOf s then some ([], s.drop pat.length)
    else
      match splitFirst pat rest with
      | some (b, a) => some (c :: b, a)
      | none => none

/-- `GetSubstitution` of JavaScript `String.replace` for a string search
value: in the replacement, `$$` gives `$`, `$&` the matched string `m`,
`$` followed by a backquote the part `b` before the match, `$` followed by
a quote the part `a` after the match; any other `$` stays literal (a string
pattern has no capture groups). -/
def expandRepl (m b a : List Char) : List Char → List Char
  | [] => []
  | c :: t =>
    if c = '$' then
      match t with
      | [] => ['$']
      | c2 :: t2 =>
        if c2 = '$' then '$' :: expandRepl m b a t2
        else if c2 = '&' then m ++ expandRepl m b a t2
        else if c2 = Char.ofNat 96 then b ++ expandRepl m b a t2
        else if c2 = Char.ofNat 39 then a ++ expandRepl m b a t2
        else '$' :: c2 :: expandRepl m b a t2
    else c :: expandRepl m b a t

/-- JavaScript `s.replace(pat, repl)` with string arguments: replace the
first occurrence of `pat`, applying `GetSubstitution` to `repl`. -/
def jsReplace (s pat repl : List Char) : List Char :=
  match splitFirst pat s with
  | none => s
  | some (b, a) => b ++ expandRepl pat b a repl ++ a

/-- Request body of the approve endpoint (`hash` / `secret`, each possibly
absent). -/
structure ApproveBody where
  hash : Option (List Char)
  secret : Option (List Char)
deriving DecidableEq, Repr

/-- Result of the approve endpoint: an error response with its HTTP status
and message, or success carrying the hash echoed back and the new file
content written to the store. -/
inductive ApproveOutcome where
  | err (status : Nat) (msg : List Char)
  | ok (hash : List Char) (newContent : List Char)
deriving DecidableEq, Repr

/-- The new content written by an outcome (`none` when nothing is written). -/
def ApproveOutcome.written : ApproveOutcome → Option (List Char)
  | .err _ _ => none
  | .ok _ c => some c

/-- The approve endpoint POST handler of the unnamed route file.
`adminSecret` is the `ADMIN_SECRET` environment value, `configured` whether
the GitHub client and repo coordinates exist, `storeRead` the content read
from the store (`none` when the read throws, turned into a 500 by the
catch), `regexOk` whether `new RegExp(...)` succeeds for this hash (a hash
with invalid regex syntax, e.g. an unbalanced `(`, makes the constructor
throw inside the try block and the catch answer 500; for alphanumeric
hashes the construction always succeeds), `writeOk` whether the write
succeeds.  The checks happen in source order: payload, missing fields
(JavaScript falsiness: absent or empty), secret, configuration, read,
regex construction, search, rewrite, write. -/
def approvePOST (adminSecret : Option (List Char)) (configured : Bool)
    (body : Option ApproveBody) (storeRead : Option (List Char))
    (regexOk : Bool) (writeOk : Bool) : ApproveOutcome :=
  match body with
  | none => .err 400 "Payload inválido.".toList
  | some b =>
    match b.hash, b.secret with
    | none, _ => .err 400 "Hash y secret requeridos.".toList
    | some _, none => .err 400 "Hash y secret requeridos.".toList
    | some h, some s =>
      if h = [] ∨ s = [] then .err 400 "Hash y secret requeridos.".toList
      else if some s ≠ adminSecret then .err 403 "Secret inválido.".toList
      else if ¬ configured then .err 500 "GitHub no configurado.".toList
      else
        match storeRead with
        | none => .err 500 "Error interno al aprobar.".toList
        | some content =>
          if regexOk then
            match searchPending h content with
            | none => .err 404 "Commit no encontrado o ya aprobado.".toList
            | some (m0, tap, rest) =>
              if writeOk then
                .ok h (jsReplace content m0
                  ("- **".toList ++ h ++ "** [".toList ++ tap ++ "] ".toList ++ rest))
              else .err 500 "Error interno al aprobar.".toList
          else .err 500 "Error interno al aprobar.".toList

/-- The serialized pending line for hash/tap/rest (`rest` being
`alias: "message" _(date)_`), as the approve regex sees it. -/
def pendingLine (h tap rest : List Char) : List Char :=
  "- **".toList ++ h ++ "** [".toList ++ tap ++ "] (pending) ".toList ++ rest

/-- The approved form the endpoint writes back: the same line without the
`(pending) ` token. -/
def approvedLine (h tap rest : List Char) : List Char :=
  "- **".toList ++ h ++ "** [".toList ++ tap ++ "] ".toList ++ rest

/-- ASCII whitespace trimmed by `String.prototype.trim`. -/
def isJsSpace (c : Char) : Bool :=
  c == ' ' || c == '\t' || c == '\n' || c == '\r' || c == '\x0b' || c == '\x0c'

/-- JavaScript `s.trim()`: strip whitespace from both ends. -/
def jsTrim (s : List Char) : List Char :=
  ((s.dropWhile isJsSpace).reverse.dropWhile isJsSpace).reverse

/-- JavaScript `s.toLowerCase()` on the ASCII range (the beer styles the
route compares against are all ASCII). -/
def jsLower (s : List Char) : List Char :=
  s.map fun c =>
    if 'A' ≤ c ∧ c ≤ 'Z' then Char.ofNat (c.toNat + 32) else c

/-- The `beerStyles` array of route.ts lines 6-17. -/
def beerStyles : List (List Char) :=
  ["ipa", "stout", "porter", "lager", "pils", "tripel", "weiss", "neipa",
    "saison", "choco-mint"].map String.toList

/-- The default header content created when the backing file does not exist
(route.ts line 147). -/
def defaultHeader : List Char :=
  "# Last Commit Log\n\nRegistro de commits cerveceros.\n\n".toList

/-- Request body of the commit endpoint. -/
structure CommitBody where
  message : Option (List Char)
  «alias» : Option (List Char)
  beer : Option (List Char)
deriving DecidableEq, Repr

/-- Outcome of the store write (`createOrUpdateFileContents`): it throws, or
succeeds returning `data.commit.sha` (possibly absent). -/
inductive WriteOutcome where
  | fail
  | ok (sha : Option (List Char))
deriving DecidableEq, Repr

/-- Outcome of the store interaction for a commit submission: the GitHub
client is not configured (block skipped), the read throws with a non-404
status (rethrown, caught by the outer catch), or the read yields the file
content (`none` = 404, replaced by the default header) followed by a write
outcome. -/
inductive StoreOutcome where
  | noGithub
  | readFail
  | read (c : Option (List Char)) (w : WriteOutcome)
deriving DecidableEq, Repr

/-- Response of the commit endpoint: an error with HTTP status and message,
or the success JSON (hash, message, alias, tap, createdAt, status) together
with the content written to the store (`none` when nothing was persisted). -/
inductive CommitResult where
  | err (status : Nat) (msg : List Char)
  | ok (hash message «alias» tap createdAt : List Char) (status : Status)
      (written : Option (List Char))
deriving DecidableEq, Repr

/-- The content a commit response persisted, if any. -/
def CommitResult.written : CommitResult → Option (List Char)
  | .err _ _ => none
  | .ok _ _ _ _ _ _ w => w

/-- The message field of a success response. -/
def CommitResult.messageField : CommitResult → Option (List Char)
  | .err _ _ => none
  | .ok _ m _ _ _ _ _ => some m

/-- The hash field of a success response. -/
def CommitResult.hashField : CommitResult → Option (List Char)
  | .err _ _ => none
  | .ok h _ _ _ _ _ _ => some h

/-- `alias` computation of route.ts line 118. -/
def aliasOf (b : CommitBody) : List Char :=
  let alias0 := jsTrim (b.«alias».getD "anónimo".toList)
  if alias0 = [] then "anónimo".toList else alias0

/-- `tap` computation of route.ts lines 119-120. -/
def tapOf (b : CommitBody) : List Char :=
  let beer := jsLower (jsTrim (b.beer.getD []))
  if beer ∈ beerStyles then beer else "craft".toList

/-- `message` computation of route.ts lines 110 and 121 (trim, then
truncate to 140). -/
def messageOf (b : CommitBody) : List Char :=
  (jsTrim (b.message.getD [])).take 140

/-- The commit endpoint POST handler (route.ts lines 100-185).  `randHash`
is the random 7-character provisional hash of line 124, `now` the ISO
timestamp of line 122, `store` the store behavior.  Persistence errors are
caught and the response still carries the provisional hash with pending
status. -/
def commitPOST (body : Option CommitBody) (randHash now : List Char)
    (store : StoreOutcome) : CommitResult :=
  match body with
  | none => .err 400 "Payload inválido. Envía un JSON con mensaje.".toList
  | some b =>
    if jsTrim (b.message.getD []) = [] then
      .err 400 "El mensaje del commit es requerido.".toList
    else
      let message := messageOf b
      let tap := tapOf b
      let al := aliasOf b
      match store with
      | .noGithub => .ok randHash message al tap now .pending none
      | .readFail => .ok randHash message al tap now .pending none
      | .read c w =>
        let content := c.getD defaultHeader
        let newContent := content ++
          encodeLine ⟨randHash, tap, al, message, now, .pending⟩ ++ ['\n']
        match w with
        | .fail => .ok randHash message al tap now .pending none
        | .ok sha =>
          let finalHash :=
            match sha with
            | some sh => if sh = [] then randHash else sh.take 7
            | none => randHash
          .ok finalHash message al tap now .pending (some newContent)

/-- The delimiter-freedom precondition exactly as the spec round-trip
property states it: the field contains none of `: "`, `" _(`, `)_`. -/
def NoDelims (s : List Char) : Prop :=
  hasSubList ": \"".toList s = false ∧ hasSubList "\" _(".toList s = false ∧
    hasSubList ")_".toList s = false

/-- The spec's stated round-trip precondition on a record: alias, message
and tap contain none of the delimiter sequences. -/
def NoDelimRecord (r : CommitRecord) : Prop :=
  NoDelims r.«alias» ∧ NoDelims r.message ∧ NoDelims r.tap

/-- A record whose message contains a bare quote (but none of the three
delimiter sequences): the claimed round-trip precondition holds, decoding
fails. -/
def rC1 : CommitRecord :=
  ⟨"abc1234".toList, "craft".toList, "bob".toList, "a\"b".toList,
    "2024-01-01T00:00:00.000Z".toList, Status.pending⟩

/-- A well-formed record used as round-trip witness. -/
def rW1 : CommitRecord :=
  ⟨"abc1234".toList, "ipa".toList, "ana".toList, "Feliz año".toList,
    "2024-01-01T00:00:00.000Z".toList, Status.pending⟩

/-- An approved well-formed record used as witness. -/
def rW1a : CommitRecord :=
  ⟨"b2c3d4e".toList, "stout".toList, "val".toList, "hola".toList,
    "2024-02-02T00:00:00.000Z".toList, Status.approved⟩

/-- A record whose message contains a quote and re-decodes with a different
message. -/
def rC10 : CommitRecord :=
  ⟨"abc1234".toList, "craft".toList, "bob".toList, "x\" _(y".toList,
    "2024".toList, Status.pending⟩

/-- The unique well-formed pending line of the C2 counterexample file. -/
def c2line : List Char :=
  "- **abc1234** [craft] (pending) bob: \"hi\" _(d)_".toList

/-- The same line in approved form. -/
def c2approved : List Char :=
  "- **abc1234** [craft] bob: \"hi\" _(d)_".toList

/-- C2 counterexample file: the first line is `x` followed by the text of
the pending line (so it is not itself a pending line), the second line is
the unique pending line with the hash. -/
def c2content : List Char := ('x' :: c2line) ++ '\n' :: c2line

/-- C3 counterexample file: a line `- **abc1234** [a` with an unclosed
bracket followed by a line `b] (pending) x` — no single line matches the
approve pattern, but the multiline regex matches across the newline because
the tap class `[^\]]` does not exclude line terminators. -/
def c3content : List Char := "- **abc1234** [a\nb] (pending) x".toList

instance (s : List Char) : Decidable (NoDelims s) := by
  unfold NoDelims
  infer_instance

instance (r : CommitRecord) : Decidable (NoDelimRecord r) := by
  unfold NoDelimRecord
  infer_instance

/-! ## Theorems -/

theorem stripLit_append (p s : List Char) : stripLit p (p ++ s) = some s := by
  induction p with
  | nil => rfl
  | cons c ps ih => simp [stripLit, ih]

theorem stripLit_some_iff {p s t : List Char} : stripLit p s = some t ↔ s = p ++ t := by
  induction p generalizing s with
  | nil =>
    simp [stripLit]
  | cons c ps ih =>
    cases s with
    | nil => simp [stripLit]
    | cons x xs =>
      by_cases h : x = c
      · subst h
        simp [stripLit, ih]
      · simp [stripLit, h]

theorem stripLit_isSome (p s : List Char) : (stripLit p s).isSome = p.isPrefixOf s := by
  induction p generalizing s with
  | nil => simp [stripLit, List.isPrefixOf]
  | cons c ps ih =>
    cases s with
    | nil => simp [stripLit, List.isPrefixOf]
    | cons x xs =>
      by_cases h : x = c
      · subst h
        simp [stripLit, List.isPrefixOf, ih]
      · simp [stripLit, List.isPrefixOf, h, Ne.symm h]

theorem stripLit_eq_none {p s : List Char} (h : p.isPrefixOf s = false) :
    stripLit p s = none := by
  have := stripLit_isSome p s
  rw [h] at this
  exact Option.not_isSome_iff_eq_none.mp (by simp [this])

theorem isPrefixOf_append_cons {pat l : List Char} {x : Char} {z : List Char}
    (hx : ∀ c ∈ pat, c ≠ x) (h : pat.isPrefixOf (l ++ x :: z) = true) :
    pat.isPrefixOf l = true := by
  induction pat generalizing l with
  | nil => simp [List.isPrefixOf]
  | cons c ps ih =>
    cases l with
    | nil =>
      simp only [List.nil_append, List.isPrefixOf, Bool.and_eq_true, beq_iff_eq] at h
      exact absurd h.1 (hx c (by simp))
    | cons y ys =>
      simp only [List.cons_append, List.isPrefixOf, Bool.and_eq_true, beq_iff_eq] at h ⊢
      exact ⟨h.1, ih (fun d hd => hx d (by simp [hd])) h.2⟩

theorem takeWhile_middle {p : Char → Bool} {l : List Char} {b : Char} {r : List Char}
    (hl : ∀ c ∈ l, p c = true) (hb : p b = false) :
    (l ++ b :: r).takeWhile p = l := by
  induction l with
  | nil => simp [List.takeWhile_cons, hb]
  | cons x xs ih =>
    have hx := hl x (by simp)
    simp [List.takeWhile_cons, hx, ih (fun c hc => hl c (by simp [hc]))]

theorem dropWhile_middle {p : Char → Bool} {l : List Char} {b : Char} {r : List Char}
    (hl : ∀ c ∈ l, p c = true) (hb : p b = false) :
    (l ++ b :: r).dropWhile p = b :: r := by
  induction l with
  | nil => simp [List.dropWhile_cons, hb]
  | cons x xs ih =>
    have hx := hl x (by simp)
    simp [List.dropWhile_cons, hx, ih (fun c hc => hl c (by simp [hc]))]

theorem takeWhile_all {p : Char → Bool} {l : List Char} (hl : ∀ c ∈ l, p c = true) :
    l.takeWhile p = l := by
  induction l with
  | nil => rfl
  | cons x xs ih =>
    have hx := hl x (by simp)
    simp [List.takeWhile_cons, hx, ih (fun c hc => hl c (by simp [hc]))]

theorem dropWhile_all {p : Char → Bool} {l : List Char} (hl : ∀ c ∈ l, p c = true) :
    l.dropWhile p = [] := by
  induction l with
  | nil => rfl
  | cons x xs ih =>
    have hx := hl x (by simp)
    simp [List.dropWhile_cons, hx, ih (fun c hc => hl c (by simp [hc]))]

theorem hasSubList_cons_false {pat : List Char} {x : Char} {xs : List Char}
    (h : hasSubList pat (x :: xs) = false) :
    pat.isPrefixOf (x :: xs) = false ∧ hasSubList pat xs = false := by
  simpa [hasSubList] using h

theorem alnum_not_lineTerm {c : Char} (hc : isAlnumChar c = true) :
    isLineTerm c = false := by
  simp only [isAlnumChar, Bool.or_eq_true, Bool.and_eq_true, Nat.ble_eq] at hc
  have h1 : c ≠ '\n' := fun e => by
    rw [e, show ('\n').toNat = 10 from rfl] at hc; omega
  have h2 : c ≠ '\r' := fun e => by
    rw [e, show ('\r').toNat = 13 from rfl] at hc; omega
  have h3 : c ≠ Char.ofNat 8232 := fun e => by
    rw [e, show (Char.ofNat 8232).toNat = 8232 from by decide] at hc; omega
  have h4 : c ≠ Char.ofNat 8233 := fun e => by
    rw [e, show (Char.ofNat 8233).toNat = 8233 from by decide] at hc; omega
  simp [isLineTerm, h1, h2, h3, h4]

theorem no_lineTerm_ne_newline {l : List Char} (hl : ∀ c ∈ l, isLineTerm c = false) :
    ∀ c ∈ l, c ≠ '\n' := by
  intro c hc e
  subst e
  exact absurd (hl _ hc) (by decide)

theorem parseMsgDate_encode {msg date t : List Char}
    (hm : msg ≠ []) (hmq : ∀ c ∈ msg, c ≠ '"')
    (hd : date ≠ []) (hdp : ∀ c ∈ date, c ≠ ')') :
    parseMsgDate (msg ++ "\" _(".toList ++ date ++ ")_".toList ++ t) =
      some (msg, date) := by
  have hmq' : ∀ c ∈ msg, decide (c ≠ '"') = true := by
    intro c hc; simpa using hmq c hc
  have hdp' : ∀ c ∈ date, decide (c ≠ ')') = true := by
    intro c hc; simpa using hdp c hc
  have e1 : msg ++ "\" _(".toList ++ date ++ ")_".toList ++ t =
      msg ++ '"' :: (" _(".toList ++ date ++ ")_".toList ++ t) := by
    simp
  have e2 : (msg ++ "\" _(".toList ++ date ++ ")_".toList ++ t).takeWhile
      (fun c => c ≠ '"') = msg := by
    rw [e1]; exact takeWhile_middle hmq' (by simp)
  have e3 : (msg ++ "\" _(".toList ++ date ++ ")_".toList ++ t).dropWhile
      (fun c => c ≠ '"') = '"' :: (" _(".toList ++ date ++ ")_".toList ++ t) := by
    rw [e1]; exact dropWhile_middle hmq' (by simp)
  have e4 : stripLit "\" _(".toList ('"' :: (" _(".toList ++ date ++ ")_".toList ++ t)) =
      some (date ++ (")_".toList ++ t)) := by
    have : '"' :: (" _(".toList ++ date ++ ")_".toList ++ t) =
        "\" _(".toList ++ (date ++ (")_".toList ++ t)) := by simp
    rw [this, stripLit_append]
  have e5 : date ++ (")_".toList ++ t) = date ++ ')' :: ('_' :: t) := by simp
  have e6 : (date ++ (")_".toList ++ t)).takeWhile (fun c => c ≠ ')') = date := by
    rw [e5]; exact takeWhile_middle hdp' (by simp)
  have e7 : (date ++ (")_".toList ++ t)).dropWhile (fun c => c ≠ ')') =
      ')' :: ('_' :: t) := by
    rw [e5]; exact dropWhile_middle hdp' (by simp)
  have e8 : stripLit ")_".toList (')' :: ('_' :: t)) = some t := by
    have : ')' :: ('_' :: t) = ")_".toList ++ t := by simp
    rw [this, stripLit_append]
  simp only [parseMsgDate, e2, e3, e4, e6, e7, e8]
  simp [hm, hd]

theorem parseAMDGo_encode {a msg date : List Char}
    (ha : a ≠ []) (hnl : ∀ c ∈ a, isLineTerm c = false)
    (hsub : hasSubList ": \"".toList a = false)
    (hm : msg ≠ []) (hmq : ∀ c ∈ msg, c ≠ '"')
    (hd : date ≠ []) (hdp : ∀ c ∈ date, c ≠ ')') :
    ∀ acc, parseAMDGo acc
        (a ++ ": \"".toList ++ msg ++ "\" _(".toList ++ date ++ ")_".toList) =
      some (acc ++ a, msg, date) := by
  induction a with
  | nil => exact absurd rfl ha
  | cons x a' ih =>
    intro acc
    have hx : isLineTerm x = false := hnl x (by simp)
    have hmsg := parseMsgDate_encode (t := []) hm hmq hd hdp
    simp only [List.append_assoc, List.append_nil] at hmsg
    simp only [List.cons_append, List.append_assoc]
    rw [parseAMDGo, if_neg (by simp [hx])]
    rcases eq_or_ne a' [] with ha' | ha'
    · subst ha'
      simp only [List.nil_append]
      rw [stripLit_append]
      have hmsg2 : parseMsgDate (msg ++ '"' :: ' ' :: '_' :: '(' :: (date ++ [')', '_'])) =
          some (msg, date) := by simpa using hmsg
      simp [hmsg2]
    · by_cases hpre : (": \"".toList).isPrefixOf
        (a' ++ (": \"".toList ++ (msg ++ ("\" _(".toList ++ (date ++ ")_".toList))))) = true
      · -- a prefix occurrence of the delimiter here contradicts the hypotheses
        exfalso
        have hsub' := (hasSubList_cons_false hsub).2
        rcases a' with - | ⟨y, a''⟩
        · exact ha' rfl
        rcases a'' with - | ⟨z, a'''⟩
        · simp [List.isPrefixOf, String.toList] at hpre
        rcases a''' with - | ⟨w, a4⟩
        · simp [List.isPrefixOf, String.toList] at hpre
        have hfalse := (hasSubList_cons_false hsub').1
        simp only [List.cons_append, String.toList, List.isPrefixOf, Bool.and_eq_true,
          beq_iff_eq] at hpre
        obtain ⟨h1, h2, h3, -⟩ := hpre
        simp [List.isPrefixOf] at hfalse
        exact hfalse h1 h2 h3
      · have hpre' : (": \"".toList).isPrefixOf
            (a' ++ (": \"".toList ++ (msg ++ ("\" _(".toList ++ (date ++ ")_".toList))))) = false := by
          simp only [Bool.not_eq_true] at hpre
          exact hpre
        rw [stripLit_eq_none hpre']
        have ih' := ih ha' (fun c hc => hnl c (by simp [hc]))
          (hasSubList_cons_false hsub).2 (acc ++ [x])
        simp only [List.append_assoc] at ih'
        rw [ih']
        simp

/-- Evaluation of the fixed stages of `parseLine` (literal prefix, hash run,
tap run) on a well-formed line, leaving the status/alias part `S3` open. -/

theorem parseLine_stages (hash tap S3 : List Char)
    (h1 : hash ≠ []) (h2 : ∀ c ∈ hash, isAlnumChar c = true)
    (h3 : tap ≠ []) (h4 : ∀ c ∈ tap, c ≠ ']') :
    parseLine ('-' :: ' ' :: '*' :: '*' ::
        (hash ++ '*' :: '*' :: ' ' :: '[' :: (tap ++ ']' :: ' ' :: S3))) =
      (match stripLit "(pending) ".toList S3 with
       | some s4 =>
         match parseAMDGo [] s4 with
         | some (a, m, d) => some ⟨hash, tap, a, m, d, Status.pending⟩
         | none =>
           match parseAMDGo [] S3 with
           | some (a, m, d) => some ⟨hash, tap, a, m, d, Status.approved⟩
           | none => none
       | none =>
         match parseAMDGo [] S3 with
         | some (a, m, d) => some ⟨hash, tap, a, m, d, Status.approved⟩
         | none => none) := by
  have h4' : ∀ c ∈ tap, decide (c ≠ ']') = true := fun c hc => by simpa using h4 c hc
  have sA : stripLit "- **".toList ('-' :: ' ' :: '*' :: '*' ::
      (hash ++ '*' :: '*' :: ' ' :: '[' :: (tap ++ ']' :: ' ' :: S3))) =
      some (hash ++ '*' :: '*' :: ' ' :: '[' :: (tap ++ ']' :: ' ' :: S3)) :=
    stripLit_append "- **".toList _
  have sB : (hash ++ '*' :: '*' :: ' ' :: '[' :: (tap ++ ']' :: ' ' :: S3)).takeWhile
      isAlnumChar = hash := takeWhile_middle h2 (by decide)
  have sB' : (hash ++ '*' :: '*' :: ' ' :: '[' :: (tap ++ ']' :: ' ' :: S3)).dropWhile
      isAlnumChar = '*' :: '*' :: ' ' :: '[' :: (tap ++ ']' :: ' ' :: S3) :=
    dropWhile_middle h2 (by decide)
  have sC : stripLit "** [".toList ('*' :: '*' :: ' ' :: '[' :: (tap ++ ']' :: ' ' :: S3)) =
      some (tap ++ ']' :: ' ' :: S3) := stripLit_append "** [".toList _
  have sD : (tap ++ ']' :: ' ' :: S3).takeWhile (fun c => c ≠ ']') = tap :=
    takeWhile_middle h4' (by decide)
  have sD' : (tap ++ ']' :: ' ' :: S3).dropWhile (fun c => c ≠ ']') = ']' :: ' ' :: S3 :=
    dropWhile_middle h4' (by decide)
  have sE : stripLit "] ".toList (']' :: ' ' :: S3) = some S3 :=
    stripLit_append "] ".toList _
  simp only [parseLine, sA, sB, sB', sC, sD, sD', sE, if_neg h1, if_neg h3]

theorem parseLine_encodeLine (r : CommitRecord) (h : RoundTrippable r) :
    parseLine (encodeLine r) = some r := by
  obtain ⟨hash, tap, al, msg, date, st⟩ := r
  obtain ⟨h1, h2, h3, h4, h5, h6, h7, h8, h9, h10, h11, h12⟩ := h
  have hamd : parseAMDGo []
      (al ++ ':' :: ' ' :: '"' :: (msg ++ '"' :: ' ' :: '_' :: '(' :: (date ++ [')', '_']))) =
      some (al, msg, date) := by
    have := parseAMDGo_encode h5 h6 h7 h9 h10 h11 h12 []
    simpa using this
  cases st with
  | pending =>
    have hT : encodeLine ⟨hash, tap, al, msg, date, Status.pending⟩ =
        '-' :: ' ' :: '*' :: '*' :: (hash ++ '*' :: '*' :: ' ' :: '[' ::
          (tap ++ ']' :: ' ' ::
            ('(' :: 'p' :: 'e' :: 'n' :: 'd' :: 'i' :: 'n' :: 'g' :: ')' :: ' ' ::
              (al ++ ':' :: ' ' :: '"' ::
                (msg ++ '"' :: ' ' :: '_' :: '(' :: (date ++ [')', '_'])))))) := by
      simp [encodeLine]
    rw [hT, parseLine_stages hash tap _ h1 h2 h3 h4]
    have hmk : stripLit "(pending) ".toList
        ('(' :: 'p' :: 'e' :: 'n' :: 'd' :: 'i' :: 'n' :: 'g' :: ')' :: ' ' ::
          (al ++ ':' :: ' ' :: '"' ::
            (msg ++ '"' :: ' ' :: '_' :: '(' :: (date ++ [')', '_'])))) =
        some (al ++ ':' :: ' ' :: '"' ::
          (msg ++ '"' :: ' ' :: '_' :: '(' :: (date ++ [')', '_']))) :=
      stripLit_append "(pending) ".toList _
    simp only [hmk, hamd]
  | approved =>
    have hT : encodeLine ⟨hash, tap, al, msg, date, Status.approved⟩ =
        '-' :: ' ' :: '*' :: '*' :: (hash ++ '*' :: '*' :: ' ' :: '[' ::
          (tap ++ ']' :: ' ' ::
            (al ++ ':' :: ' ' :: '"' ::
              (msg ++ '"' :: ' ' :: '_' :: '(' :: (date ++ [')', '_']))))) := by
      simp [encodeLine]
    rw [hT, parseLine_stages hash tap _ h1 h2 h3 h4]
    have hmk : stripLit "(pending) ".toList
        (al ++ ':' :: ' ' :: '"' ::
          (msg ++ '"' :: ' ' :: '_' :: '(' :: (date ++ [')', '_']))) = none := by
      apply stripLit_eq_none
      cases hb : ("(pending) ".toList).isPrefixOf
          (al ++ ':' :: ' ' :: '"' ::
            (msg ++ '"' :: ' ' :: '_' :: '(' :: (date ++ [')', '_']))) with
      | false => rfl
      | true =>
        have hcol : ∀ c ∈ "(pending) ".toList, c ≠ ':' := by decide
        have := isPrefixOf_append_cons hcol hb
        rw [h8 rfl] at this
        simp at this
    simp only [hmk, hamd]

theorem parseMsgDate_no_quote {s m d : List Char}
    (h : parseMsgDate s = some (m, d)) : ∀ c ∈ m, c ≠ '"' := by
  simp only [parseMsgDate] at h
  repeat' split at h
  all_goals first
    | (simp only [Option.some.injEq, Prod.mk.injEq] at h
       obtain ⟨rfl, -⟩ := h
       intro c hc
       have := List.mem_takeWhile_imp hc
       simpa using this)
    | simp at h

theorem parseAMDGo_no_quote {s acc a m d : List Char}
    (h : parseAMDGo acc s = some (a, m, d)) : ∀ c ∈ m, c ≠ '"' := by
  induction s generalizing acc with
  | nil => simp [parseAMDGo] at h
  | cons x rest ih =>
    rw [parseAMDGo] at h
    split at h
    · exact absurd h (by simp)
    · split at h
      · split at h
        · rename_i s2 hstrip m' d' hmsg
          simp only [Option.some.injEq, Prod.mk.injEq] at h
          obtain ⟨-, rfl, -⟩ := h
          exact parseMsgDate_no_quote hmsg
        · exact ih h
      · exact ih h

theorem parseLine_message_no_quote {line : List Char} {r : CommitRecord}
    (h : parseLine line = some r) : ∀ c ∈ r.message, c ≠ '"' := by
  simp only [parseLine] at h
  repeat' split at h
  all_goals first
    | (injection h with h'
       subst h'
       exact parseAMDGo_no_quote (by assumption))
    | simp at h

theorem hasSubList_iff {pat s : List Char} : hasSubList pat s = true ↔ pat <:+: s := by
  induction s with
  | nil => simp [hasSubList, List.isEmpty_iff]
  | cons x xs ih =>
    simp [hasSubList, ih, List.isPrefixOf_iff_prefix, List.infix_cons_iff]

theorem parseLine_pending_marker {line : List Char} {r : CommitRecord}
    (h : parseLine line = some r) (hst : r.status = Status.pending) :
    hasSubList "(pending) ".toList line = true := by
  simp only [parseLine] at h
  split at h
  · simp at h
  case h_2 s1 heq1 =>
    split at h
    · simp at h
    · split at h
      · simp at h
      case h_2 s2 heq2 =>
        split at h
        · simp at h
        · split at h
          · simp at h
          case h_2 s3 heq3 =>
            split at h
            case h_1 s4 heq4 =>
              rw [hasSubList_iff]
              have e1 := stripLit_some_iff.mp heq1
              have e2 := stripLit_some_iff.mp heq2
              have e3 := stripLit_some_iff.mp heq3
              have e4 := stripLit_some_iff.mp heq4
              have hsuf : s3 <:+ line := by
                have a1 : s1 <:+ line := ⟨"- **".toList, e1.symm⟩
                have a2 : List.dropWhile isAlnumChar s1 <:+ s1 := List.dropWhile_suffix _
                have a3 : s2 <:+ List.dropWhile isAlnumChar s1 := ⟨"** [".toList, e2.symm⟩
                have a4 : List.dropWhile (fun c => decide (c ≠ ']')) s2 <:+ s2 :=
                  List.dropWhile_suffix _
                have a5 : s3 <:+ List.dropWhile (fun c => decide (c ≠ ']')) s2 :=
                  ⟨"] ".toList, e3.symm⟩
                exact a5.trans (a4.trans (a3.trans (a2.trans a1)))
              obtain ⟨pre, hpre⟩ := hsuf
              exact ⟨pre, s4, by rw [← hpre, e4]; simp⟩
            case h_2 heq4 =>
              split at h
              · injection h with h'
                subst h'
                simp at hst
              · simp at h

theorem parseLine_no_marker_approved {line : List Char} {r : CommitRecord}
    (h : parseLine line = some r)
    (hmk : hasSubList "(pending) ".toList line = false) :
    r.status = Status.approved := by
  cases hs : r.status with
  | approved => rfl
  | pending =>
    have := parseLine_pending_marker h hs
    rw [hmk] at this
    exact absurd this (by simp)

theorem splitNL_ne_nil (s : List Char) : splitNL s ≠ [] := by
  cases s with
  | nil => simp [splitNL]
  | cons c rest =>
    rw [splitNL]
    split
    · simp
    · split <;> simp

theorem splitNL_line_append {l : List Char} (hl : ∀ c ∈ l, c ≠ '\n') (t : List Char) :
    splitNL (l ++ '\n' :: t) = l :: splitNL t := by
  induction l with
  | nil => simp [splitNL]
  | cons x xs ih =>
    have hx : x ≠ '\n' := hl x (by simp)
    rw [List.cons_append, splitNL, if_neg hx, ih (fun c hc => hl c (by simp [hc]))]

theorem splitNL_two_le {s : List Char} (hs : '\n' ∈ s) : 2 ≤ (splitNL s).length := by
  induction s with
  | nil => simp at hs
  | cons c rest ih =>
    by_cases hc : c = '\n'
    · subst hc
      rw [splitNL, if_pos rfl]
      cases h : splitNL rest with
      | nil => exact absurd h (splitNL_ne_nil rest)
      | cons a l => simp
    · have hrest : '\n' ∈ rest := by
        rcases List.mem_cons.mp hs with h | h
        · exact absurd h.symm hc
        · exact h
      rw [splitNL, if_neg hc]
      cases h : splitNL rest with
      | nil => exact absurd h (splitNL_ne_nil rest)
      | cons a l =>
        have h2 := ih hrest
        rw [h] at h2
        simpa using h2

theorem splitNL_append {s : List Char} (hs : s = [] ∨ s.getLast? = some '\n')
    (t : List Char) :
    splitNL (s ++ t) = (splitNL s).dropLast ++ splitNL t := by
  induction s with
  | nil => simp [splitNL]
  | cons c rest ih =>
    rcases hs with h | h
    · exact absurd h (by simp)
    rcases eq_or_ne rest [] with hr | hr
    · subst hr
      rw [List.getLast?_singleton] at h
      injection h with h
      subst h
      rw [List.cons_append, splitNL, if_pos rfl]
      rw [show splitNL ['\n'] = [[], []] from rfl]
      simp
    · have h' : rest.getLast? = some '\n' := by
        obtain ⟨r0, rest', rfl⟩ : ∃ r0 rest', rest = r0 :: rest' := by
          cases rest with
          | nil => exact absurd rfl hr
          | cons r0 rest' => exact ⟨r0, rest', rfl⟩
        rwa [List.getLast?_cons_cons] at h
      have ihh := ih (Or.inr h')
      by_cases hc : c = '\n'
      · subst hc
        rw [List.cons_append, splitNL, if_pos rfl, ihh, splitNL, if_pos rfl]
        cases hsp : splitNL rest with
        | nil => exact absurd hsp (splitNL_ne_nil rest)
        | cons a l => simp
      · rw [List.cons_append, splitNL, if_neg hc, ihh, splitNL, if_neg hc]
        have h2 : 2 ≤ (splitNL rest).length :=
          splitNL_two_le (List.mem_of_getLast?_eq_some h')
        cases hsp : splitNL rest with
        | nil => exact absurd hsp (splitNL_ne_nil rest)
        | cons a l =>
          cases l with
          | nil => rw [hsp] at h2; simp at h2
          | cons b l' => simp

theorem loadFromFile_append {content line : List Char} {r : CommitRecord}
    (hend : content = [] ∨ content.getLast? = some '\n')
    (hnl : ∀ c ∈ line, c ≠ '\n')
    (hp : ("- **".toList).isPrefixOf line = true)
    (hr : parseLine line = some r) :
    loadFromFile (content ++ (line ++ ['\n'])) = r :: loadFromFile content := by
  have e1 : splitNL (content ++ (line ++ ['\n'])) =
      (splitNL content).dropLast ++ [line, []] := by
    rw [splitNL_append hend]
    congr 1
    rw [show line ++ ['\n'] = line ++ '\n' :: ([] : List Char) from rfl,
      splitNL_line_append hnl]
    rfl
  have e2 : splitNL content = (splitNL content).dropLast ++ [[]] := by
    have h := splitNL_append hend []
    rw [List.append_nil] at h
    rw [show splitNL ([] : List Char) = [[]] from rfl] at h
    exact h
  unfold loadFromFile
  rw [e1]
  conv_rhs => rw [e2]
  have hp' : ['-', ' ', '*', '*'].isPrefixOf line = true := hp
  have hpn : (['-', ' ', '*', '*'].isPrefixOf ([] : List Char)) = false := rfl
  simp [List.filter_append, List.filterMap_append, hp', hpn, hr]

theorem mem_loadFromFile {content : List Char} {r : CommitRecord} :
    r ∈ loadFromFile content ↔
      ∃ l ∈ splitNL content,
        ("- **".toList).isPrefixOf l = true ∧ parseLine l = some r := by
  simp [loadFromFile, List.mem_filterMap, List.mem_filter, and_assoc]

theorem approvePat_no_newline {h : List Char} (hh : ∀ c ∈ h, c ≠ '\n') :
    ∀ c ∈ ("- **".toList ++ h ++ "** [".toList), c ≠ '\n' := by
  intro c hc
  simp only [List.append_assoc, List.mem_append] at hc
  rcases hc with hc | hc | hc
  · exact (by decide : ∀ c ∈ ['-', ' ', '*', '*'], c ≠ '\n') c hc
  · exact hh c hc
  · exact (by decide : ∀ c ∈ ['*', '*', ' ', '['], c ≠ '\n') c hc

theorem dropWhile_ne_mem {x : Char} {l : List Char} (hx : x ∈ l) :
    ∃ v, l.dropWhile (fun c => c ≠ x) = x :: v := by
  induction l with
  | nil => simp at hx
  | cons c t ih =>
    by_cases hc : c = x
    · subst hc
      exact ⟨t, by rw [List.dropWhile_cons, if_neg (by simp)]⟩
    · rcases List.mem_cons.mp hx with h | hx'
      · exact absurd h.symm hc
      · obtain ⟨v, hv⟩ := ih hx'
        refine ⟨v, ?_⟩
        rw [List.dropWhile_cons, if_pos (by simpa using hc), hv]

theorem parsePendingAt_target {h tap rest post : List Char}
    (htap : tap ≠ []) (htapc : ∀ c ∈ tap, c ≠ ']')
    (hrest : rest ≠ []) (hrestc : ∀ c ∈ rest, isLineTerm c = false)
    (hpost : post = [] ∨ ∃ p', post = '\n' :: p') :
    parsePendingAt h (pendingLine h tap rest ++ post) =
      some (pendingLine h tap rest, tap, rest) := by
  have htapc' : ∀ c ∈ tap, decide (c ≠ ']') = true := fun c hc => by simpa using htapc c hc
  have hrestc' : ∀ c ∈ rest, (!(isLineTerm c)) = true :=
    fun c hc => by simp [hrestc c hc]
  have e0 : pendingLine h tap rest ++ post =
      ("- **".toList ++ h ++ "** [".toList) ++
        (tap ++ ']' :: ' ' :: '(' :: 'p' :: 'e' :: 'n' :: 'd' :: 'i' :: 'n' :: 'g' ::
          ')' :: ' ' :: (rest ++ post)) := by
    simp [pendingLine]
  have e1 : stripLit ("- **".toList ++ h ++ "** [".toList) (pendingLine h tap rest ++ post) =
      some (tap ++ ']' :: ' ' :: '(' :: 'p' :: 'e' :: 'n' :: 'd' :: 'i' :: 'n' :: 'g' ::
        ')' :: ' ' :: (rest ++ post)) := by
    rw [e0]; exact stripLit_append _ _
  have e2 : (tap ++ ']' :: ' ' :: '(' :: 'p' :: 'e' :: 'n' :: 'd' :: 'i' :: 'n' :: 'g' ::
      ')' :: ' ' :: (rest ++ post)).takeWhile (fun c => c ≠ ']') = tap :=
    takeWhile_middle htapc' (by decide)
  have e3 : (tap ++ ']' :: ' ' :: '(' :: 'p' :: 'e' :: 'n' :: 'd' :: 'i' :: 'n' :: 'g' ::
      ')' :: ' ' :: (rest ++ post)).dropWhile (fun c => c ≠ ']') =
      ']' :: ' ' :: '(' :: 'p' :: 'e' :: 'n' :: 'd' :: 'i' :: 'n' :: 'g' ::
        ')' :: ' ' :: (rest ++ post) :=
    dropWhile_middle htapc' (by decide)
  have e4 : stripLit "] (pending) ".toList
      (']' :: ' ' :: '(' :: 'p' :: 'e' :: 'n' :: 'd' :: 'i' :: 'n' :: 'g' ::
        ')' :: ' ' :: (rest ++ post)) = some (rest ++ post) :=
    stripLit_append "] (pending) ".toList _
  have e5 : (rest ++ post).takeWhile (fun c => !(isLineTerm c)) = rest := by
    rcases hpost with rfl | ⟨p', rfl⟩
    · rw [List.append_nil]; exact takeWhile_all hrestc'
    · exact takeWhile_middle hrestc' (by decide)
  simp only [parsePendingAt, e1, e2, e3, e4, e5, if_neg htap, if_neg hrest]
  simp [pendingLine]

theorem parsePendingAt_none_of_not_prefixOf {h l z : List Char}
    (hh : ∀ c ∈ h, c ≠ '\n')
    (hpre : (("- **".toList ++ h ++ "** [".toList)).isPrefixOf l = false) :
    parsePendingAt h (l ++ '\n' :: z) = none ∧ parsePendingAt h l = none := by
  constructor
  · have hps : (("- **".toList ++ h ++ "** [".toList)).isPrefixOf (l ++ '\n' :: z) = false := by
      cases hb : (("- **".toList ++ h ++ "** [".toList)).isPrefixOf (l ++ '\n' :: z) with
      | false => rfl
      | true =>
        have := isPrefixOf_append_cons (approvePat_no_newline hh) hb
        rw [hpre] at this
        simp at this
    rw [parsePendingAt, stripLit_eq_none hps]
  · rw [parsePendingAt, stripLit_eq_none hpre]

theorem searchAfterNL_line {h l z : List Char} (hl : ∀ c ∈ l, isLineTerm c = false) :
    searchAfterNL h (l ++ '\n' :: z) = searchPending h z := by
  induction l with
  | nil =>
    rw [List.nil_append, searchAfterNL, if_pos (by decide : isLineTerm '\n' = true),
      searchPending]
  | cons c t ih =>
    have hc : isLineTerm c = false := hl c (by simp)
    rw [List.cons_append, searchAfterNL, if_neg (by simp [hc])]
    exact ih (fun d hd => hl d (by simp [hd]))

theorem searchPending_skip {h l z : List Char}
    (hl : ∀ c ∈ l, isLineTerm c = false)
    (hfail : parsePendingAt h (l ++ '\n' :: z) = none) :
    searchPending h (l ++ '\n' :: z) = searchPending h z := by
  rw [searchPending, hfail]
  exact searchAfterNL_line hl

theorem searchPending_here {h s : List Char} {res : List Char × List Char × List Char}
    (hres : parsePendingAt h s = some res) : searchPending h s = some res := by
  rw [searchPending, hres]

theorem searchPending_found {h : List Char} (hh : ∀ c ∈ h, c ≠ '\n') :
    ∀ n pre t0 res, pre.length ≤ n →
      (pre = [] ∨ pre.getLast? = some '\n') →
      (∀ c ∈ pre, isLineTerm c = true → c = '\n') →
      (∀ l ∈ splitNL pre,
        (("- **".toList ++ h ++ "** [".toList)).isPrefixOf l = false) →
      parsePendingAt h t0 = some res →
      searchPending h (pre ++ t0) = some res := by
  intro n
  induction n with
  | zero =>
    intro pre t0 res hlen _ _ _ hres
    have hpre : pre = [] := List.length_eq_zero.mp (Nat.le_zero.mp hlen)
    subst hpre
    rw [List.nil_append]
    exact searchPending_here hres
  | succ n ih =>
    intro pre t0 res hlen hend honly hlines hres
    rcases eq_or_ne pre [] with rfl | hne
    · rw [List.nil_append]
      exact searchPending_here hres
    · rcases hend with h0 | hend
      · exact absurd h0 hne
      have hmem : '\n' ∈ pre := List.mem_of_getLast?_eq_some hend
      obtain ⟨v, hv⟩ := dropWhile_ne_mem hmem
      have hdecomp : pre = pre.takeWhile (fun c => c ≠ '\n') ++ '\n' :: v := by
        conv_lhs => rw [← List.takeWhile_append_dropWhile (p := fun c => c ≠ '\n')
          (l := pre)]
        rw [hv]
      have hl1 : ∀ c ∈ pre.takeWhile (fun c => c ≠ '\n'), c ≠ '\n' := by
        intro c hc
        simpa using List.mem_takeWhile_imp hc
      have hl1lt : ∀ c ∈ pre.takeWhile (fun c => c ≠ '\n'), isLineTerm c = false := by
        intro c hc
        have hcp : c ∈ pre := by
          rw [hdecomp]; exact List.mem_append_left _ hc
        cases hlt : isLineTerm c with
        | false => rfl
        | true => exact absurd (honly c hcp hlt) (hl1 c hc)
      have hvonly : ∀ c ∈ v, isLineTerm c = true → c = '\n' := by
        intro c hc
        exact honly c (by
          rw [hdecomp]; exact List.mem_append_right _ (List.mem_cons_of_mem _ hc))
      have hsplit : splitNL pre = pre.takeWhile (fun c => c ≠ '\n') :: splitNL v := by
        conv_lhs => rw [hdecomp]
        exact splitNL_line_append hl1 v
      have hvend : v = [] ∨ v.getLast? = some '\n' := by
        rcases eq_or_ne v [] with rfl | hvne
        · exact Or.inl rfl
        · right
          obtain ⟨v0, v', rfl⟩ : ∃ v0 v', v = v0 :: v' := by
            cases v with
            | nil => exact absurd rfl hvne
            | cons v0 v' => exact ⟨v0, v', rfl⟩
          rw [hdecomp, List.getLast?_append, List.getLast?_cons_cons] at hend
          cases hgl : (v0 :: v').getLast? with
          | none =>
            rw [List.getLast?_eq_none_iff] at hgl
            exact absurd hgl (by simp)
          | some x =>
            rw [hgl] at hend
            simpa [Option.or] using hend
      have hvlen : v.length ≤ n := by
        have := congrArg List.length hdecomp
        simp only [List.length_append, List.length_cons] at this
        omega
      have hvlines : ∀ l ∈ splitNL v,
          (("- **".toList ++ h ++ "** [".toList)).isPrefixOf l = false := by
        intro l hl
        exact hlines l (by rw [hsplit]; exact List.mem_cons_of_mem _ hl)
      have hfailhere : parsePendingAt h
          (pre.takeWhile (fun c => c ≠ '\n') ++ '\n' :: (v ++ t0)) = none :=
        (parsePendingAt_none_of_not_prefixOf hh
          (hlines _ (by rw [hsplit]; exact List.mem_cons_self _ _))).1
      calc searchPending h (pre ++ t0)
            = searchPending h (pre.takeWhile (fun c => c ≠ '\n') ++ '\n' :: (v ++ t0)) := by
              conv_lhs => rw [hdecomp]
              simp [List.append_assoc]
        _ = searchPending h (v ++ t0) := searchPending_skip hl1lt hfailhere
        _ = some res := ih v t0 res hvlen hvend hvonly hvlines hres

theorem expandRepl_no_dollar {m b a repl : List Char} (h : '$' ∉ repl) :
    expandRepl m b a repl = repl := by
  induction repl with
  | nil => rfl
  | cons c t ih =>
    have hc : c ≠ '$' := fun e => h (by simp [e])
    have ht : '$' ∉ t := fun e => h (List.mem_cons_of_mem _ e)
    rw [expandRepl.eq_def]
    simp only [if_neg hc, ih ht]

theorem jsReplace_eq {content pat repl b a : List Char}
    (hsf : splitFirst pat content = some (b, a)) (hd : '$' ∉ repl) :
    jsReplace content pat repl = b ++ repl ++ a := by
  simp only [jsReplace, hsf, expandRepl_no_dollar hd]

theorem approvedLine_no_dollar {h tap rest : List Char}
    (h1 : '$' ∉ h) (h2 : '$' ∉ tap) (h3 : '$' ∉ rest) :
    '$' ∉ approvedLine h tap rest := by
  intro hm
  simp only [approvedLine, List.append_assoc, List.mem_append] at hm
  rcases hm with hm | hm | hm | hm | hm
  · exact (by decide : '$' ∉ ['-', ' ', '*', '*']) hm
  · exact h1 hm
  · exact (by decide : '$' ∉ ['*', '*', ' ', '[']) hm
  · exact h2 hm
  · rcases hm with hm | hm
    · exact (by decide : '$' ∉ [']', ' ']) hm
    · exact h3 hm

/-- Success path of the approve endpooint on a file containing the target
pending line, provided no earlier line-start can match and the line's text
first occurs at its own position. -/

theorem approvePOST_success {s h tap rest pre post content : List Char}
    (hs : s ≠ []) (hh : h ≠ [])
    (hhn : ∀ c ∈ h, c ≠ '\n')
    (htap : tap ≠ []) (htapc : ∀ c ∈ tap, c ≠ ']')
    (hrest : rest ≠ []) (hrestc : ∀ c ∈ rest, isLineTerm c = false)
    (hcontent : content = pre ++ (pendingLine h tap rest ++ post))
    (hpre : pre = [] ∨ pre.getLast? = some '\n')
    (honly : ∀ c ∈ pre, isLineTerm c = true → c = '\n')
    (hpost : post = [] ∨ ∃ p', post = '\n' :: p')
    (hlines : ∀ l ∈ splitNL pre,
      (("- **".toList ++ h ++ "** [".toList)).isPrefixOf l = false)
    (hfirst : splitFirst (pendingLine h tap rest) content = some (pre, post))
    (hd1 : '$' ∉ h) (hd2 : '$' ∉ tap) (hd3 : '$' ∉ rest) :
    approvePOST (some s) true (some ⟨some h, some s⟩) (some content) true true =
      ApproveOutcome.ok h (pre ++ (approvedLine h tap rest ++ post)) := by
  have hsearch : searchPending h content = some (pendingLine h tap rest, tap, rest) := by
    rw [hcontent]
    exact searchPending_found hhn pre.length pre _ _ le_rfl hpre honly hlines
      (parsePendingAt_target htap htapc hrest hrestc hpost)
  have hrepl : jsReplace content (pendingLine h tap rest) (approvedLine h tap rest) =
      pre ++ approvedLine h tap rest ++ post :=
    jsReplace_eq hfirst (approvedLine_no_dollar hd1 hd2 hd3)
  simp only [approvePOST, if_neg (by simp [hs, hh] : ¬(h = [] ∨ s = []))]
  rw [if_neg (by simp), if_neg (by simp), hsearch]
  simp only [if_pos rfl]
  rw [show ("- **".toList ++ h ++ "** [".toList ++ tap ++ "] ".toList ++ rest) =
    approvedLine h tap rest from rfl, hrepl]
  simp [List.append_assoc]

theorem splitNL_no_newline {s : List Char} (hs : '\n' ∉ s) : splitNL s = [s] := by
  induction s with
  | nil => rfl
  | cons c t ih =>
    have hc : c ≠ '\n' := fun e => hs (by simp [e])
    have ht : '\n' ∉ t := fun e => hs (List.mem_cons_of_mem _ e)
    rw [splitNL, if_neg hc, ih ht]

theorem parsePendingAt_line_extend {h l z : List Char}
    (hh : ∀ c ∈ h, c ≠ '\n') (hl : ∀ c ∈ l, isLineTerm c = false)
    (hz : z = [] ∨ ∃ z', z = '\n' :: z')
    (hbr : (("- **".toList ++ h ++ "** [".toList)).isPrefixOf l = true →
      ']' ∈ l.drop ("- **".toList ++ h ++ "** [".toList).length)
    (hnone : parsePendingAt h l = none) :
    parsePendingAt h (l ++ z) = none := by
  rcases hz with rfl | ⟨z', rfl⟩
  · simpa using hnone
  cases hpre : (("- **".toList ++ h ++ "** [".toList)).isPrefixOf l with
  | false =>
    have hps : (("- **".toList ++ h ++ "** [".toList)).isPrefixOf (l ++ '\n' :: z') = false := by
      cases hb : (("- **".toList ++ h ++ "** [".toList)).isPrefixOf (l ++ '\n' :: z') with
      | false => rfl
      | true =>
        have := isPrefixOf_append_cons (approvePat_no_newline hh) hb
        rw [hpre] at this
        simp at this
    rw [parsePendingAt, stripLit_eq_none hps]
  | true =>
    -- the pattern is a prefix of the line
    obtain ⟨l2, hl2⟩ : ∃ l2, l = ("- **".toList ++ h ++ "** [".toList) ++ l2 := by
      obtain ⟨l2, hl2⟩ := ( List.isPrefixOf_iff_prefix.mp hpre)
      exact ⟨l2, hl2.symm⟩
    have hbr' : ']' ∈ l2 := by
      have := hbr hpre
      rwa [hl2, List.drop_left] at this
    obtain ⟨v, hv⟩ := dropWhile_ne_mem hbr'
    have hl2decomp : l2 = l2.takeWhile (fun c => c ≠ ']') ++ ']' :: v := by
      conv_lhs => rw [← List.takeWhile_append_dropWhile (p := fun c => c ≠ ']') (l := l2)]
      rw [hv]
    have hl2mem : ∀ c ∈ l2, isLineTerm c = false := by
      intro c hc
      exact hl c (by rw [hl2]; exact List.mem_append_right _ hc)
    have humem : ∀ c ∈ l2.takeWhile (fun c => c ≠ ']'), decide (c ≠ ']') = true := by
      intro c hc
      have h1 := List.mem_takeWhile_imp hc
      simpa using h1
    have hvmem : ∀ c ∈ v, isLineTerm c = false := by
      intro c hc
      exact hl2mem c (by rw [hl2decomp]; exact List.mem_append_right _ (by simp [hc]))
    -- strip the pattern from both strings
    have e1 : stripLit ("- **".toList ++ h ++ "** [".toList) l = some l2 :=
      stripLit_some_iff.mpr hl2
    have e1' : stripLit ("- **".toList ++ h ++ "** [".toList) (l ++ '\n' :: z') =
        some (l2 ++ '\n' :: z') := by
      apply stripLit_some_iff.mpr
      rw [hl2, List.append_assoc]
    -- the tap run stops at the first `]` in both strings
    have e2 : l2.takeWhile (fun c => c ≠ ']') = l2.takeWhile (fun c => c ≠ ']') := rfl
    have e3 : (l2 ++ '\n' :: z').takeWhile (fun c => c ≠ ']') =
        l2.takeWhile (fun c => c ≠ ']') := by
      conv_lhs => rw [hl2decomp]
      rw [List.append_assoc, List.cons_append]
      exact takeWhile_middle humem (by decide)
    have e4 : (l2 ++ '\n' :: z').dropWhile (fun c => c ≠ ']') = ']' :: (v ++ '\n' :: z') := by
      conv_lhs => rw [hl2decomp]
      rw [List.append_assoc, List.cons_append]
      exact dropWhile_middle humem (by decide)
    rw [parsePendingAt, e1']
    rw [parsePendingAt, e1] at hnone
    by_cases hu : l2.takeWhile (fun c => c ≠ ']') = []
    · simp only [e3, hu]
      rfl
    · simp only [e3, e4, if_neg hu]
      simp only [hv, if_neg hu] at hnone
      -- compare the `] (pending) ` strips
      cases hq : ("] (pending) ".toList).isPrefixOf (']' :: v) with
      | false =>
        have hq' : ("] (pending) ".toList).isPrefixOf (']' :: (v ++ '\n' :: z')) = false := by
          cases hb : ("] (pending) ".toList).isPrefixOf (']' :: (v ++ '\n' :: z')) with
          | false => rfl
          | true =>
            have hb' : ("] (pending) ".toList).isPrefixOf ((']' :: v) ++ '\n' :: z') = true := by
              simpa using hb
            have := isPrefixOf_append_cons (by decide) hb'
            rw [hq] at this
            simp at this
        rw [stripLit_eq_none hq']
      | true =>
        obtain ⟨w, hw⟩ : ∃ w, ']' :: v = "] (pending) ".toList ++ w := by
          obtain ⟨w, hw⟩ := ( List.isPrefixOf_iff_prefix.mp hq)
          exact ⟨w, hw.symm⟩
        have ew : stripLit "] (pending) ".toList (']' :: v) = some w :=
          stripLit_some_iff.mpr hw
        have hwmem : ∀ c ∈ w, (!(isLineTerm c)) = true := by
          intro c hc
          have : c ∈ ']' :: v := by rw [hw]; exact List.mem_append_right _ hc
          rcases List.mem_cons.mp this with rfl | hcv
          · decide
          · simp [hvmem c hcv]
        have hwrun : w.takeWhile (fun c => !(isLineTerm c)) = w := takeWhile_all hwmem
        rw [ew] at hnone
        split at hnone
        · rename_i heq
          cases heq
        · rename_i s2 heq
          injection heq with heq2
          subst heq2
          rw [hwrun] at hnone
          by_cases hwe : w = []
          · subst hwe
            have hv2 : ']' :: v = "] (pending) ".toList := by simpa using hw
            have ew' : stripLit "] (pending) ".toList (']' :: (v ++ '\n' :: z')) =
                some ('\n' :: z') := by
              apply stripLit_some_iff.mpr
              calc ']' :: (v ++ '\n' :: z') = (']' :: v) ++ '\n' :: z' := by simp
                _ = "] (pending) ".toList ++ '\n' :: z' := by rw [hv2]
            rw [ew']
            simp [List.takeWhile_cons, isLineTerm]
          · rw [if_neg hwe] at hnone
            exact absurd hnone (by simp)

theorem searchAfterNL_no_term {h s : List Char} (hs : ∀ c ∈ s, isLineTerm c = false) :
    searchAfterNL h s = none := by
  induction s with
  | nil => rfl
  | cons c t ih =>
    have hc : isLineTerm c = false := hs c (by simp)
    rw [searchAfterNL, if_neg (by simp [hc])]
    exact ih (fun d hd => hs d (by simp [hd]))

theorem searchPending_none {h : List Char} (hh : ∀ c ∈ h, c ≠ '\n') :
    ∀ n content, content.length ≤ n →
      (∀ c ∈ content, isLineTerm c = true → c = '\n') →
      (∀ l ∈ splitNL content, parsePendingAt h l = none) →
      (∀ l ∈ splitNL content,
        (("- **".toList ++ h ++ "** [".toList)).isPrefixOf l = true →
          ']' ∈ l.drop ("- **".toList ++ h ++ "** [".toList).length) →
      searchPending h content = none := by
  intro n
  induction n with
  | zero =>
    intro content hlen _ _ _
    have hc : content = [] := List.length_eq_zero.mp (Nat.le_zero.mp hlen)
    subst hc
    rw [searchPending]
    rfl
  | succ n ih =>
    intro content hlen honly hno hbr
    by_cases hmem : '\n' ∈ content
    · obtain ⟨v, hv⟩ := dropWhile_ne_mem hmem
      have hdecomp : content = content.takeWhile (fun c => c ≠ '\n') ++ '\n' :: v := by
        conv_lhs => rw [← List.takeWhile_append_dropWhile (p := fun c => c ≠ '\n')
          (l := content)]
        rw [hv]
      have hl1 : ∀ c ∈ content.takeWhile (fun c => c ≠ '\n'), c ≠ '\n' := by
        intro c hc
        simpa using List.mem_takeWhile_imp hc
      have hl1lt : ∀ c ∈ content.takeWhile (fun c => c ≠ '\n'), isLineTerm c = false := by
        intro c hc
        have hcp : c ∈ content := by
          rw [hdecomp]; exact List.mem_append_left _ hc
        cases hlt : isLineTerm c with
        | false => rfl
        | true => exact absurd (honly c hcp hlt) (hl1 c hc)
      have hvonly : ∀ c ∈ v, isLineTerm c = true → c = '\n' := by
        intro c hc
        exact honly c (by
          rw [hdecomp]; exact List.mem_append_right _ (List.mem_cons_of_mem _ hc))
      have hsplit : splitNL content = content.takeWhile (fun c => c ≠ '\n') :: splitNL v := by
        conv_lhs => rw [hdecomp]
        exact splitNL_line_append hl1 v
      have hhead : content.takeWhile (fun c => c ≠ '\n') ∈ splitNL content := by
        rw [hsplit]; exact List.mem_cons_self _ _
      have hfail : parsePendingAt h
          (content.takeWhile (fun c => c ≠ '\n') ++ '\n' :: v) = none :=
        parsePendingAt_line_extend hh hl1lt (Or.inr ⟨v, rfl⟩)
          (hbr _ hhead) (hno _ hhead)
      have hvlen : v.length ≤ n := by
        have := congrArg List.length hdecomp
        simp only [List.length_append, List.length_cons] at this
        omega
      have hvno : ∀ l ∈ splitNL v, parsePendingAt h l = none := by
        intro l hl
        exact hno l (by rw [hsplit]; exact List.mem_cons_of_mem _ hl)
      have hvbr : ∀ l ∈ splitNL v,
          (("- **".toList ++ h ++ "** [".toList)).isPrefixOf l = true →
            ']' ∈ l.drop ("- **".toList ++ h ++ "** [".toList).length := by
        intro l hl
        exact hbr l (by rw [hsplit]; exact List.mem_cons_of_mem _ hl)
      calc searchPending h content
          = searchPending h (content.takeWhile (fun c => c ≠ '\n') ++ '\n' :: v) := by
            conv_lhs => rw [hdecomp]
        _ = searchPending h v := searchPending_skip hl1lt hfail
        _ = none := ih v hvlen hvonly hvno hvbr
    · have hone : splitNL content = [content] := splitNL_no_newline hmem
      have hfail2 : parsePendingAt h content = none :=
        hno content (by rw [hone]; exact List.mem_cons_self _ _)
      have hlt : ∀ c ∈ content, isLineTerm c = false := by
        intro c hc
        cases hx : isLineTerm c with
        | false => rfl
        | true => exact absurd (honly c hc hx ▸ hc) hmem
      rw [searchPending, hfail2]
      exact searchAfterNL_no_term hlt

/-- C1 (counterexample): the record `rC1` satisfies the claim's stated
precondition — alias, message and tap contain none of the delimiter
sequences `: "`, `" _(`, `)_` — yet decoding its encoded line does not give
the record back (the bare quote in the message makes the decode fail). -/

theorem claim1_counterexample :
    NoDelimRecord rC1 ∧ parseLine (encodeLine rC1) ≠ some rC1 := by
  decide

/-- C1 (amended): for every record with non-empty alphanumeric hash,
non-empty tap without `]`, non-empty alias without line terminators (LF,
CR, LS, PS), without the substring `: "` and (for approved records) not
starting with `(pending) `, non-empty message containing no `"` at all, and
non-empty createdAt without `)`, decoding the encoded line yields the
record back with all fields and the status intact. -/

theorem claim1_roundtrip (r : CommitRecord) (h : RoundTrippable r) :
    parseLine (encodeLine r) = some r :=
  parseLine_encodeLine r h

/-- C1 witness: the amended round-trip at a concrete valid record. -/

theorem claim1_roundtrip_witness : parseLine (encodeLine rW1) = some rW1 :=
  claim1_roundtrip rW1 (by decide)

/-- C10: for every record whose message contains a double quote — whether or
not the full closing delimiter `" _(` appears — decoding the encoded line
never returns the original record: either the decode fails, or the decoded
message differs from the original (the message capture group `[^"]+`
excludes quotes, so a decoded message never contains one). -/

theorem claim10_quote_breaks_roundtrip (r : CommitRecord)
    (h : '"' ∈ r.message) :
    parseLine (encodeLine r) ≠ some r ∧
      ∀ r', parseLine (encodeLine r) = some r' → r'.message ≠ r.message := by
  constructor
  · intro heq
    exact (parseLine_message_no_quote heq '"' h) rfl
  · intro r' heq hmsg
    exact (parseLine_message_no_quote heq '"' (hmsg ▸ h)) rfl

/-- C10 witness: at `rC10` (message `x" _(y`) the decode succeeds with a
different message, hence is not the original record. -/

theorem claim10_witness :
    parseLine (encodeLine rC10) ≠ some rC10 ∧
      ∀ r', parseLine (encodeLine rC10) = some r' → r'.message ≠ rC10.message :=
  claim10_quote_breaks_roundtrip rC10 (by decide)

/-- C8: the decoded status is decided by the pending marker: a line that
nowhere contains the token `(pending) ` (in particular any line in the older
format) decodes with approved status; a line that decodes pending contains
the token; and on well-formed records encoding preserves the status (marker
written exactly for pending records). -/

theorem claim8_status_from_marker :
    (∀ line r, parseLine line = some r →
      hasSubList "(pending) ".toList line = false → r.status = Status.approved) ∧
    (∀ line r, parseLine line = some r → r.status = Status.pending →
      hasSubList "(pending) ".toList line = true) ∧
    (∀ r, RoundTrippable r →
      ∃ r', parseLine (encodeLine r) = some r' ∧ r'.status = r.status) := by
  refine ⟨fun line r h hmk => parseLine_no_marker_approved h hmk,
    fun line r h hst => parseLine_pending_marker h hst,
    fun r h => ⟨r, parseLine_encodeLine r h, rfl⟩⟩

/-- C8 witness: concrete instances of the three conjuncts — an old-format
line without marker decodes approved, a pending line contains the marker,
and encoding a pending record decodes back as pending. -/

theorem claim8_witness :
    (∃ r, parseLine c2approved = some r ∧ r.status = Status.approved) ∧
    hasSubList "(pending) ".toList c2line = true ∧
    (∃ r', parseLine (encodeLine rW1) = some r' ∧ r'.status = rW1.status) := by
  refine ⟨?_, ?_, claim8_status_from_marker.2.2 rW1 (by decide)⟩
  · have hr : parseLine c2approved =
        some ⟨"abc1234".toList, "craft".toList, "bob".toList, "hi".toList,
          "d".toList, Status.approved⟩ := by decide
    exact ⟨_, hr, claim8_status_from_marker.1 c2approved _ hr (by decide)⟩
  · exact claim8_status_from_marker.2.1 c2line
      ⟨"abc1234".toList, "craft".toList, "bob".toList, "hi".toList, "d".toList,
        Status.pending⟩ (by decide) rfl

/-- C6: decoding a full file keeps exactly the lines starting with `- **`,
decodes them independently dropping failures, and reverses the result, so
appending a valid line to a newline-terminated file places its record first
(newest-first order); membership in the decoded list is exactly
decodability of some marker line of the file. -/

theorem claim6_newest_first :
    (∀ content line r, (content = [] ∨ content.getLast? = some '\n') →
      (∀ c ∈ line, c ≠ '\n') → ("- **".toList).isPrefixOf line = true →
      parseLine line = some r →
      loadFromFile (content ++ (line ++ ['\n'])) = r :: loadFromFile content) ∧
    (∀ content r, r ∈ loadFromFile content ↔
      ∃ l ∈ splitNL content,
        ("- **".toList).isPrefixOf l = true ∧ parseLine l = some r) :=
  ⟨fun _ _ _ hend hnl hp hr => loadFromFile_append hend hnl hp hr,
   fun _ _ => mem_loadFromFile⟩

/-- C6 witness: appending the encoded line of a concrete record to the
default header places that record first in the decoded list. -/

theorem claim6_witness :
    loadFromFile (defaultHeader ++ (encodeLine rW1 ++ ['\n'])) =
      rW1 :: loadFromFile defaultHeader :=
  claim6_newest_first.1 defaultHeader (encodeLine rW1) rW1 (by decide) (by decide)
    (by decide) (parseLine_encodeLine rW1 (by decide))

/-- C2 (counterexample): `c2content` contains exactly one pending line with
hash `abc1234` (its first line starts with `x`, so it is not a pending
line), yet a successful approval rewrites the FIRST line — `String.replace`
replaces the first substring occurrence of the matched text, which sits
inside line 0 — and leaves the actual pending line byte-identical and still
pending, contradicting the claim. -/

theorem claim2_counterexample :
    (splitNL c2content).countP
        (fun l => (parsePendingAt "abc1234".toList l).isSome) = 1 ∧
    approvePOST (some ['s']) true
        (some ⟨some "abc1234".toList, some ['s']⟩) (some c2content) true true =
      ApproveOutcome.ok "abc1234".toList (('x' :: c2approved) ++ '\n' :: c2line) ∧
    ('x' :: c2approved) ++ '\n' :: c2line ≠ ('x' :: c2line) ++ '\n' :: c2approved := by
  refine ⟨by decide, ?_, by decide⟩
  decide

/-- C2 (amended): on a file whose line at position `pre` is the pending line
for the hash, provided additionally that the hash is alphanumeric (it is
spliced into the pattern, so regex syntax in it would change or break the
program's regex), that the line breaks of the preceding content are plain
LF (the multiline `^` also fires after CR/LS/PS), that the rest text
contains no line terminator, that no line of the preceding content starts
with `- **<hash>** [`, that the pending line's text first occurs in the
file at its own position, and that tap/rest contain no `$`, a successful
approval with the correct secret rewrites exactly that line to the approved
form (dropping `(pending) `, keeping tap and the alias/message/date text
unchanged) and leaves the surrounding content byte-identical. -/

theorem claim2_approve_rewrites_one_line
    {s h tap rest pre post content : List Char}
    (hs : s ≠ []) (hh : h ≠ [])
    (halnum : ∀ c ∈ h, isAlnumChar c = true)
    (htap : tap ≠ []) (htapc : ∀ c ∈ tap, c ≠ ']')
    (hrest : rest ≠ []) (hrestc : ∀ c ∈ rest, isLineTerm c = false)
    (hcontent : content = pre ++ (pendingLine h tap rest ++ post))
    (hpre : pre = [] ∨ pre.getLast? = some '\n')
    (honly : ∀ c ∈ pre, isLineTerm c = true → c = '\n')
    (hpost : post = [] ∨ ∃ p', post = '\n' :: p')
    (hlines : ∀ l ∈ splitNL pre,
      (("- **".toList ++ h ++ "** [".toList)).isPrefixOf l = false)
    (hfirst : splitFirst (pendingLine h tap rest) content = some (pre, post))
    (hd2 : '$' ∉ tap) (hd3 : '$' ∉ rest) :
    approvePOST (some s) true (some ⟨some h, some s⟩) (some content) true true =
      ApproveOutcome.ok h (pre ++ (approvedLine h tap rest ++ post)) :=
  approvePOST_success hs hh
    (no_lineTerm_ne_newline (fun c hc => alnum_not_lineTerm (halnum c hc)))
    htap htapc hrest hrestc hcontent hpre honly hpost
    hlines hfirst
    (fun hm => absurd (halnum '$' hm) (by decide))
    hd2 hd3

/-- C2 witness: a file consisting of exactly the pending line is rewritten
to exactly the approved line. -/

theorem claim2_witness :
    approvePOST (some ['s']) true
        (some ⟨some "abc1234".toList, some ['s']⟩)
        (some (pendingLine "abc1234".toList "craft".toList
          "bob: \"hi\" _(d)_".toList)) true true =
      ApproveOutcome.ok "abc1234".toList
        ([] ++ (approvedLine "abc1234".toList "craft".toList
          "bob: \"hi\" _(d)_".toList ++ [])) :=
  claim2_approve_rewrites_one_line (by decide) (by decide) (by decide) (by decide)
    (by decide) (by decide) (by decide) (by simp) (Or.inl rfl) (by decide)
    (Or.inl rfl) (by decide) (by decide) (by decide) (by decide)

/-- C3 (counterexample): in `c3content` no single line matches the hash with
the pending marker, yet approval does not fail with 404: the tap class
`[^\]]` matches across the newline, the regex matches the whole two-line
span, and the endpoint rewrites the file and reports success. -/

theorem claim3_counterexample :
    (∀ l ∈ splitNL c3content, parsePendingAt "abc1234".toList l = none) ∧
    approvePOST (some ['s']) true
        (some ⟨some "abc1234".toList, some ['s']⟩) (some c3content) true true =
      ApproveOutcome.ok "abc1234".toList "- **abc1234** [a\nb] x".toList ∧
    approvePOST (some ['s']) true
        (some ⟨some "abc1234".toList, some ['s']⟩) (some c3content) true true ≠
      ApproveOutcome.err 404 "Commit no encontrado o ya aprobado.".toList := by
  refine ⟨by decide, by decide, by decide⟩

/-- C3 (amended): on a file in which no line matches the given hash with the
pending marker, provided the hash is alphanumeric (so the spliced-in hash
neither reinterprets the pattern nor makes the `RegExp` constructor throw —
the latter would answer 500, not 404), the file's line breaks are all plain
LF (the multiline `^` also fires after CR/LS/PS) and every line beginning
with `- **<hash>** [` closes its bracket within the same line (ruling out a
cross-line tap match), the approval fails with 404
(`Commit no encontrado o ya aprobado.`) and writes nothing back. -/

theorem claim3_notfound_no_write {s h content : List Char}
    (hs : s ≠ []) (hh : h ≠ []) (halnum : ∀ c ∈ h, isAlnumChar c = true)
    (honly : ∀ c ∈ content, isLineTerm c = true → c = '\n')
    (hno : ∀ l ∈ splitNL content, parsePendingAt h l = none)
    (hbr : ∀ l ∈ splitNL content,
      (("- **".toList ++ h ++ "** [".toList)).isPrefixOf l = true →
        ']' ∈ l.drop ("- **".toList ++ h ++ "** [".toList).length) :
    ∀ w, approvePOST (some s) true (some ⟨some h, some s⟩) (some content) true w =
        ApproveOutcome.err 404 "Commit no encontrado o ya aprobado.".toList ∧
      (approvePOST (some s) true (some ⟨some h, some s⟩) (some content) true w).written =
        none := by
  intro w
  have hhn : ∀ c ∈ h, c ≠ '\n' :=
    no_lineTerm_ne_newline (fun c hc => alnum_not_lineTerm (halnum c hc))
  have hsearch : searchPending h content = none :=
    searchPending_none hhn content.length content le_rfl honly hno hbr
  constructor
  · simp only [approvePOST, if_neg (by simp [hs, hh] : ¬(h = [] ∨ s = []))]
    rw [if_neg (by simp), if_neg (by simp), if_pos trivial, hsearch]
  · simp only [approvePOST, if_neg (by simp [hs, hh] : ¬(h = [] ∨ s = []))]
    rw [if_neg (by simp), if_neg (by simp), if_pos trivial, hsearch]
    rfl

/-- C3 witness: approving against a file holding only the already-approved
form of the line fails 404 without writing. -/

theorem claim3_witness :
    approvePOST (some ['s']) true
        (some ⟨some "abc1234".toList, some ['s']⟩) (some c2approved) true true =
      ApproveOutcome.err 404 "Commit no encontrado o ya aprobado.".toList ∧
    (approvePOST (some ['s']) true
        (some ⟨some "abc1234".toList, some ['s']⟩) (some c2approved) true true).written =
      none :=
  claim3_notfound_no_write (by decide) (by decide) (by decide) (by decide)
    (by decide) (by decide) true

/-- C4: when the request's secret differs from the configured administrator
credential, the approval returns 403 (`Secret inválido.`), writes nothing,
and the outcome does not depend on the store at all (the secret comparison
happens before any store access), for any configuration state and any store
content. -/

theorem claim4_wrong_secret_403 {adminSecret : Option (List Char)}
    {h s : List Char} (hh : h ≠ []) (hs : s ≠ [])
    (hsec : some s ≠ adminSecret) :
    ∀ cfg storeRead rx w,
      approvePOST adminSecret cfg (some ⟨some h, some s⟩) storeRead rx w =
        ApproveOutcome.err 403 "Secret inválido.".toList ∧
      (approvePOST adminSecret cfg (some ⟨some h, some s⟩) storeRead rx w).written =
        none := by
  intro cfg storeRead rx w
  have he : approvePOST adminSecret cfg (some ⟨some h, some s⟩) storeRead rx w =
      ApproveOutcome.err 403 "Secret inválido.".toList := by
    simp only [approvePOST, if_neg (by simp [hs, hh] : ¬(h = [] ∨ s = []))]
    rw [if_pos hsec]
  exact ⟨he, by rw [he]; rfl⟩

/-- C4 witness: wrong secret against a configured store with concrete
content yields 403 and no write; the same outcome with no store read at all
shows the file was not consulted. -/

theorem claim4_witness :
    (approvePOST (some "admin".toList) true
        (some ⟨some "abc1234".toList, some "wrong".toList⟩) (some c2content) true true =
      ApproveOutcome.err 403 "Secret inválido.".toList) ∧
    (approvePOST (some "admin".toList) true
        (some ⟨some "abc1234".toList, some "wrong".toList⟩) none false false =
      ApproveOutcome.err 403 "Secret inválido.".toList) :=
  ⟨(claim4_wrong_secret_403 (by decide) (by decide) (by decide) true
      (some c2content) true true).1,
   (claim4_wrong_secret_403 (by decide) (by decide) (by decide) true none false
      false).1⟩

/-- C5: a commit submission whose message trims to the empty string is
rejected with 400 `El mensaje del commit es requerido.` whatever the store
would have done, and nothing is written to the backing file. -/

theorem claim5_empty_message_400 {b : CommitBody}
    (hm : jsTrim (b.message.getD []) = []) :
    ∀ randHash now store,
      commitPOST (some b) randHash now store =
        CommitResult.err 400 "El mensaje del commit es requerido.".toList ∧
      (commitPOST (some b) randHash now store).written = none := by
  intro randHash now store
  have he : commitPOST (some b) randHash now store =
      CommitResult.err 400 "El mensaje del commit es requerido.".toList := by
    simp only [commitPOST, if_pos hm]
  exact ⟨he, by rw [he]; rfl⟩

/-- C5 witness: the empty message and a whitespace-only message are both
rejected with the exact Spanish validation error, with a concrete store
available. -/

theorem claim5_witness :
    commitPOST (some ⟨some "   ".toList, some "ana".toList, some "ipa".toList⟩)
        "abc1234".toList "2024-01-01T00:00:00.000Z".toList
        (StoreOutcome.read (some defaultHeader) (WriteOutcome.ok none)) =
      CommitResult.err 400 "El mensaje del commit es requerido.".toList :=
  (claim5_empty_message_400 (by decide) "abc1234".toList
    "2024-01-01T00:00:00.000Z".toList
    (StoreOutcome.read (some defaultHeader) (WriteOutcome.ok none))).1

/-- C7: for a commit submission with a non-empty (after trimming) message,
when the store read throws (non-404) or the write throws, the endpoint
still answers success carrying the originally generated random hash and
status pending, and nothing is persisted. -/

theorem claim7_store_failure_masked {b : CommitBody}
    (hm : jsTrim (b.message.getD []) ≠ []) :
    ∀ randHash now,
      commitPOST (some b) randHash now StoreOutcome.readFail =
        CommitResult.ok randHash (messageOf b) (aliasOf b) (tapOf b) now
          Status.pending none ∧
      ∀ c, commitPOST (some b) randHash now (StoreOutcome.read c WriteOutcome.fail) =
        CommitResult.ok randHash (messageOf b) (aliasOf b) (tapOf b) now
          Status.pending none := by
  intro randHash now
  constructor
  · simp only [commitPOST, if_neg hm]
  · intro c
    simp only [commitPOST, if_neg hm]

/-- C7 witness: a concrete submission whose read (respectively write) fails
still returns the random hash with pending status and no write. -/

theorem claim7_witness :
    commitPOST (some ⟨some "hola mundo".toList, some "ana".toList, some "ipa".toList⟩)
        "abc1234".toList "2024-01-01T00:00:00.000Z".toList StoreOutcome.readFail =
      CommitResult.ok "abc1234".toList "hola mundo".toList "ana".toList "ipa".toList
        "2024-01-01T00:00:00.000Z".toList Status.pending none :=
  (claim7_store_failure_masked (by decide) "abc1234".toList
    "2024-01-01T00:00:00.000Z".toList).1

/-- C9: the message of every successful commit response is the trimmed
message truncated to its first 140 characters: when the trimmed message has
at most 140 characters it is passed through unchanged, and when it is
longer the result is exactly its first 140 characters, with no error. -/

theorem claim9_truncation {b : CommitBody}
    (hm : jsTrim (b.message.getD []) ≠ []) :
    (∀ randHash now store,
      (commitPOST (some b) randHash now store).messageField =
        some ((jsTrim (b.message.getD [])).take 140)) ∧
    ((jsTrim (b.message.getD [])).length ≤ 140 →
      messageOf b = jsTrim (b.message.getD [])) ∧
    (140 < (jsTrim (b.message.getD [])).length →
      (messageOf b).length = 140 ∧
        messageOf b = (jsTrim (b.message.getD [])).take 140) := by
  refine ⟨?_, ?_, ?_⟩
  · intro randHash now store
    cases store with
    | noGithub => simp [commitPOST, if_neg hm, CommitResult.messageField, messageOf]
    | readFail => simp [commitPOST, if_neg hm, CommitResult.messageField, messageOf]
    | read c w =>
      cases w with
      | fail => simp [commitPOST, if_neg hm, CommitResult.messageField, messageOf]
      | ok sha =>
        simp [commitPOST, if_neg hm, CommitResult.messageField, messageOf]
  · intro hle
    exact List.take_of_length_le hle
  · intro hgt
    refine ⟨?_, rfl⟩
    simp only [messageOf, List.length_take]
    omega

/-- C9 witness: a concrete 150-character trimmed message is cut to exactly
its first 140 characters, and a short message passes unchanged. -/

theorem claim9_witness :
    (commitPOST (some ⟨some (List.replicate 150 'a'), none, none⟩)
        "abc1234".toList "d".toList StoreOutcome.noGithub).messageField =
      some ((jsTrim (List.replicate 150 'a')).take 140) ∧
    messageOf ⟨some "hola".toList, none, none⟩ = jsTrim "hola".toList :=
  ⟨(claim9_truncation (by decide)).1 "abc1234".toList "d".toList
      StoreOutcome.noGithub,
   (claim9_truncation (by decide)).2.1 (by decide)⟩
